import Mathlib

/-!
# The runtime shim `c-bits/main.c` of 03-boa

The file under study is the C glue that a compiled Boa program links against:

* three macros `TYPE_MASK`, `CONST_TRUE`, `CONST_FALSE`,
* `long print(long val)`, which calls
  `printf("Unknown value: %#010lx\n", val)` and returns `val`,
* `int main(int argc, char** argv)`, which calls the external routine
  `our_code_starts_here`, hands its result to `print` and returns `0`.

Embedding.  A `long` is an `Int`; the width of `long` in bits is a parameter
`w` (64 on LP64 targets, 32 on ILP32 ones) and the conversion to
`unsigned long` that `%lx` performs is reduction modulo `2 ^ w`.  Standard
output is the list of characters written so far and is threaded through every
function that can write; a write always succeeds, and the count that `printf`
returns, which `print` discards, is not modelled.  The external routine is a parameter of `main`: a
function from the standard output it finds to the standard output it leaves
and the word it returns.

The conversion specification `%#010lx` is rendered by `fmtAltZeroHex`, after
the C standard: lowercase hexadecimal digits of the unsigned value (at least
one digit), `0x` in front of a non-zero value (flag `#`), and zeros between
the prefix and the digits up to the minimum field width (flag `0`, width
`10`).
-/

namespace Boa

/-! ## Data model -/

/-- Macro `TYPE_MASK` of `main.c`. -/
def TYPE_MASK : Int := 0x00000001

/-- Macro `CONST_TRUE` of `main.c`. -/
def CONST_TRUE : Int := 0x80000001

/-- Macro `CONST_FALSE` of `main.c`. -/
def CONST_FALSE : Int := 0x00000001

/-- Standard output: the characters written so far, oldest first. -/
abbrev Stdout := List Char

/-- The value `v` is representable in a two's complement `long` of `w` bits. -/
def InLong (w : Nat) (v : Int) : Prop :=
  -(2 ^ (w - 1)) ≤ v ∧ v < 2 ^ (w - 1)

instance (w : Nat) (v : Int) : Decidable (InLong w v) := by
  unfold InLong; infer_instance

/-- Conversion of a `long` to an `unsigned long` of `w` bits, which is what the
length modifier `l` with the conversion `x` reads its argument as. -/
def toUnsigned (w : Nat) (v : Int) : Nat := (v % 2 ^ w).toNat

/-! ## The conversion `%#010lx` -/

/-- Lowercase hexadecimal digits of `n`, least significant first; `fuel`
bounds the number of digits produced. -/
def hexDigitsRev : Nat → Nat → List Char
  | 0, _ => []
  | fuel + 1, n =>
    if n < 16 then [Nat.digitChar n]
    else Nat.digitChar (n % 16) :: hexDigitsRev fuel (n / 16)

/-- Lowercase hexadecimal digits of `n`, most significant first, without
leading zeros; the single digit `0` for `n = 0`. -/
def hexDigits (n : Nat) : List Char := (hexDigitsRev (n + 1) n).reverse

/-- The text that `printf` produces for the conversion `%#0<width>lx` and the
unsigned argument `u`: the digits of `u`, the prefix `0x` when `u` is not
zero, and zeros after the prefix up to the minimum field width. -/
def fmtAltZeroHex (width : Nat) (u : Nat) : List Char :=
  let ds := hexDigits u
  let pre := if u = 0 then [] else [ '0', 'x' ]
  pre ++ List.replicate (width - (pre.length + ds.length)) '0' ++ ds

/-! ## The functions of `main.c` -/

/-- The literal text of the format string in front of the conversion. -/
def label : List Char := "Unknown value: ".toList

/-- The function `print` of `main.c`:
`printf("Unknown value: %#010lx\n", val); return val;`.  The result is the
standard output after the call and the returned word. -/
def print (w : Nat) (out : Stdout) (val : Int) : Stdout × Int :=
  (out ++ (label ++ fmtAltZeroHex 10 (toUnsigned w val) ++ [ '\n' ]), val)

/-- The function `main` of `main.c`:
`long result = our_code_starts_here(); print(result); return 0;`.  The result
is the standard output at exit and the exit status. -/
def main (w : Nat) (our_code_starts_here : Stdout → Stdout × Int)
    (argc : Int) (argv : List String) (out : Stdout) : Stdout × Int :=
  let r := our_code_starts_here out
  let result := r.2
  let p := print w r.1 result
  (p.1, 0)

/-! ## Reading a printed line back -/

/-- The character is a lowercase hexadecimal digit. -/
def isLowerHex (c : Char) : Bool :=
  c.isDigit || (97 ≤ c.toNat && c.toNat ≤ 102)

/-- Value of a lowercase hexadecimal digit. -/
def hexVal (c : Char) : Nat :=
  if c.isDigit then c.toNat - 48 else c.toNat - 87

/-- Value of a run of hexadecimal digits, most significant first. -/
def readHex (cs : List Char) : Nat :=
  cs.foldl (fun acc c => 16 * acc + hexVal c) 0

/-- Value of a run of hexadecimal digits, least significant first. -/
def readHexRev : List Char → Nat
  | [] => 0
  | c :: cs => hexVal c + 16 * readHexRev cs

/-- Drops the prefix `0x` when the text starts with it. -/
def stripAlt (cs : List Char) : List Char :=
  if cs.take 2 = [ '0', 'x' ] then cs.drop 2 else cs

/-- Reads a line of the shim back: the label, an optional `0x`, a run of
lowercase hexadecimal digits and the final newline give the number the digits
denote in base 16; any other text gives `none`. -/
def readBack (line : List Char) : Option Nat :=
  if line.take label.length = label ∧ line.getLast? = some '\n' then
    let ds := stripAlt ((line.drop label.length).dropLast)
    if ds ≠ [] ∧ ds.all isLowerHex then some (readHex ds) else none
  else none

/-! ## Sanity checks of the embedding on concrete words -/

theorem print_eval_one : (print 64 [] 1).1 = "Unknown value: 0x00000001\n".toList := by decide
theorem print_eval_zero : (print 64 [] 0).1 = "Unknown value: 0000000000\n".toList := by decide
theorem print_eval_minus_one : (print 64 [] (-1)).1 = "Unknown value: 0xffffffffffffffff\n".toList := by decide
theorem print_eval_minus_one_32 : (print 32 [] (-1)).1 = "Unknown value: 0xffffffff\n".toList := by decide
theorem print_eval_wide : (print 64 [] 0x123456789).1 = "Unknown value: 0x123456789\n".toList := by decide
theorem readBack_eval_minus_one : readBack (print 64 [] (-1)).1 = some (2 ^ 64 - 1) := by decide
theorem readBack_eval_zero : readBack (print 64 [] 0).1 = some 0 := by decide
theorem readBack_eval_other_text : readBack "Unknown value: true\n".toList = none := by decide

/-! ## Digits -/

theorem digitChar_isLowerHex {d : Nat} (hd : d < 16) :
    isLowerHex (Nat.digitChar d) = true := by
  interval_cases d <;> decide

theorem hexVal_digitChar {d : Nat} (hd : d < 16) : hexVal (Nat.digitChar d) = d := by
  interval_cases d <;> decide

/-- Every character produced is a lowercase hexadecimal digit. -/
theorem hexDigitsRev_isLowerHex (fuel : Nat) :
    ∀ n c, c ∈ hexDigitsRev fuel n → isLowerHex c = true := by
  induction fuel with
  | zero => intro n c hc; simp [hexDigitsRev] at hc
  | succ fuel ih =>
    intro n c hc
    unfold hexDigitsRev at hc
    split_ifs at hc with h
    · rw [List.mem_singleton] at hc
      rw [hc]; exact digitChar_isLowerHex h
    · rcases List.mem_cons.mp hc with h1 | h1
      · rw [h1]; exact digitChar_isLowerHex (Nat.mod_lt _ (by decide))
      · exact ih _ _ h1

/-- With enough fuel the digits denote the number they were produced from. -/
theorem readHexRev_hexDigitsRev (fuel : Nat) :
    ∀ n, n < fuel → readHexRev (hexDigitsRev fuel n) = n := by
  induction fuel with
  | zero => intro n h; exact absurd h (Nat.not_lt_zero _)
  | succ fuel ih =>
    intro n hn
    unfold hexDigitsRev
    split_ifs with h
    · simp [readHexRev, hexVal_digitChar h]
    · have h16 : n / 16 < fuel := by omega
      simp only [readHexRev, ih _ h16, hexVal_digitChar (Nat.mod_lt n (by decide : 0 < 16))]
      omega

/-- A number below `16 ^ (k + 1)` has at most `k + 1` digits. -/
theorem hexDigitsRev_length_le (k : Nat) :
    ∀ fuel n, n < 16 ^ (k + 1) → (hexDigitsRev fuel n).length ≤ k + 1 := by
  induction k with
  | zero =>
    intro fuel n hn
    cases fuel with
    | zero => simp [hexDigitsRev]
    | succ fuel =>
      have h : n < 16 := by simpa using hn
      simp [hexDigitsRev, h]
  | succ k ih =>
    intro fuel n hn
    cases fuel with
    | zero => simp [hexDigitsRev]
    | succ fuel =>
      unfold hexDigitsRev
      split_ifs with h
      · simp
      · have h16 : n / 16 < 16 ^ (k + 1) := by
          rw [Nat.div_lt_iff_lt_mul (by decide)]
          calc n < 16 ^ (k + 1 + 1) := hn
            _ = 16 ^ (k + 1) * 16 := by ring
        have := ih fuel (n / 16) h16
        simp only [List.length_cons]
        omega

/-- With enough fuel a number from `16 ^ k` on has more than `k` digits. -/
theorem hexDigitsRev_lt_length (k : Nat) :
    ∀ fuel n, n < fuel → 16 ^ k ≤ n → k < (hexDigitsRev fuel n).length := by
  induction k with
  | zero =>
    intro fuel n hf _
    cases fuel with
    | zero => exact absurd hf (Nat.not_lt_zero _)
    | succ fuel =>
      unfold hexDigitsRev
      split_ifs <;> simp
  | succ k ih =>
    intro fuel n hf hn
    cases fuel with
    | zero => exact absurd hf (Nat.not_lt_zero _)
    | succ fuel =>
      have hk : 1 ≤ 16 ^ k := Nat.one_le_pow _ _ (by decide)
      have h16 : ¬ n < 16 := by
        have : 16 ^ (k + 1) = 16 ^ k * 16 := by ring
        omega
      have hdiv : 16 ^ k ≤ n / 16 := by
        rw [Nat.le_div_iff_mul_le (by decide)]
        calc 16 ^ k * 16 = 16 ^ (k + 1) := by ring
          _ ≤ n := hn
      have := ih fuel (n / 16) (by omega) hdiv
      unfold hexDigitsRev
      rw [if_neg h16]
      simp only [List.length_cons]
      omega

theorem readHex_eq_readHexRev_reverse (cs : List Char) :
    readHex cs.reverse = readHexRev cs := by
  induction cs with
  | nil => rfl
  | cons c cs ih =>
    unfold readHex at ih ⊢
    simp only [List.reverse_cons, List.foldl_append, List.foldl_cons, List.foldl_nil, ih,
      readHexRev]
    omega

theorem readHex_hexDigits (n : Nat) : readHex (hexDigits n) = n := by
  unfold hexDigits
  rw [readHex_eq_readHexRev_reverse]
  exact readHexRev_hexDigitsRev _ _ (Nat.lt_succ_self n)

theorem hexDigits_isLowerHex (n : Nat) : ∀ c ∈ hexDigits n, isLowerHex c = true := by
  intro c hc
  unfold hexDigits at hc
  exact hexDigitsRev_isLowerHex _ _ _ (List.mem_reverse.mp hc)

theorem hexDigits_length_pos (n : Nat) : 0 < (hexDigits n).length := by
  unfold hexDigits
  rw [List.length_reverse]
  unfold hexDigitsRev
  split_ifs <;> simp

theorem hexDigits_length_le (n k : Nat) (h : n < 16 ^ (k + 1)) :
    (hexDigits n).length ≤ k + 1 := by
  unfold hexDigits
  rw [List.length_reverse]
  exact hexDigitsRev_length_le k _ _ h

theorem hexDigits_lt_length (n k : Nat) (h : 16 ^ k ≤ n) : k < (hexDigits n).length := by
  unfold hexDigits
  rw [List.length_reverse]
  exact hexDigitsRev_lt_length k _ _ (Nat.lt_succ_self n) h

theorem readHex_replicate_zero (k : Nat) (cs : List Char) :
    readHex (List.replicate k '0' ++ cs) = readHex cs := by
  unfold readHex
  have h : ∀ k, List.foldl (fun acc c => 16 * acc + hexVal c) 0 (List.replicate k '0') = 0 := by
    intro k
    induction k with
    | zero => rfl
    | succ k ih =>
      rw [List.replicate_succ', List.foldl_append, ih]
      decide
  rw [List.foldl_append, h]

/-! ## The formatted field -/

theorem fmtAltZeroHex_zero (width : Nat) :
    fmtAltZeroHex width 0 = List.replicate (width - 1) '0' ++ [ '0' ] := by
  simp [fmtAltZeroHex, hexDigits, hexDigitsRev]
  rfl

theorem fmtAltZeroHex_pos (width u : Nat) (hu : u ≠ 0) :
    fmtAltZeroHex width u =
      [ '0', 'x' ] ++ (List.replicate (width - (2 + (hexDigits u).length)) '0' ++ hexDigits u) := by
  simp [fmtAltZeroHex, hu]

/-- The field is an optional `0x` followed by a non-empty run of lowercase
hexadecimal digits that denotes the unsigned argument. -/
theorem fmtAltZeroHex_body (width u : Nat) :
    ∃ body : List Char, body ≠ [] ∧ (∀ c ∈ body, isLowerHex c = true) ∧ readHex body = u ∧
      fmtAltZeroHex width u = (if u = 0 then [] else [ '0', 'x' ]) ++ body := by
  refine ⟨List.replicate (width - ((if u = 0 then [] else [ '0', 'x' ]).length +
    (hexDigits u).length)) '0' ++ hexDigits u, ?_, ?_, ?_, ?_⟩
  · intro h
    have := hexDigits_length_pos u
    have h2 := congrArg List.length h
    simp only [List.length_append, List.length_nil] at h2
    omega
  · intro c hc
    rcases List.mem_append.mp hc with h | h
    · rw [(List.mem_replicate.mp h).2]; decide
    · exact hexDigits_isLowerHex u c h
  · rw [readHex_replicate_zero, readHex_hexDigits]
  · simp [fmtAltZeroHex]

theorem stripAlt_body (u : Nat) (body : List Char)
    (hb : ∀ c ∈ body, isLowerHex c = true) :
    stripAlt ((if u = 0 then [] else [ '0', 'x' ]) ++ body) = body := by
  unfold stripAlt
  by_cases hu : u = 0
  · simp only [hu, if_true, List.nil_append]
    have hne : ¬ List.take 2 body = [ '0', 'x' ] := by
      intro h
      have hx : 'x' ∈ List.take 2 body := by rw [h]; simp
      have := hb _ (List.mem_of_mem_take hx)
      revert this; decide
    rw [if_neg hne]
  · simp [hu]

/-- Reading a printed line back gives the unsigned word that was printed. -/
theorem readBack_line (w : Nat) (v : Int) :
    readBack (label ++ fmtAltZeroHex 10 (toUnsigned w v) ++ [ '\n' ]) =
      some (toUnsigned w v) := by
  obtain ⟨body, hne, hhex, hval, hfmt⟩ := fmtAltZeroHex_body 10 (toUnsigned w v)
  have h1 : List.take label.length (label ++ fmtAltZeroHex 10 (toUnsigned w v) ++ [ '\n' ])
      = label := by
    rw [List.append_assoc]; exact List.take_left' rfl
  have h2 : (label ++ fmtAltZeroHex 10 (toUnsigned w v) ++ [ '\n' ]).getLast? = some '\n' := by
    simp
  have h3 : (List.drop label.length
      (label ++ fmtAltZeroHex 10 (toUnsigned w v) ++ [ '\n' ])).dropLast
      = fmtAltZeroHex 10 (toUnsigned w v) := by
    rw [List.append_assoc, List.drop_left' rfl, List.dropLast_concat]
  unfold readBack
  rw [if_pos ⟨h1, h2⟩]
  simp only [h3]
  rw [hfmt, stripAlt_body _ _ hhex]
  have hall : body.all isLowerHex = true := List.all_eq_true.mpr hhex
  rw [if_pos ⟨hne, hall⟩, hval]

/-! ## Words -/

theorem toUnsigned_cast (w : Nat) (v : Int) : (toUnsigned w v : Int) = v % 2 ^ w := by
  unfold toUnsigned
  exact Int.toNat_of_nonneg (Int.emod_nonneg _ (by positivity))

theorem toUnsigned_lt (w : Nat) (v : Int) : toUnsigned w v < 2 ^ w := by
  have h : (toUnsigned w v : Int) < 2 ^ w := by
    rw [toUnsigned_cast]; exact Int.emod_lt_of_pos _ (by positivity)
  exact_mod_cast h

theorem toUnsigned_of_nonneg (w : Nat) (n : Nat) (h : n < 2 ^ w) :
    toUnsigned w (n : Int) = n := by
  have h1 : (toUnsigned w (n : Int) : Int) = n := by
    rw [toUnsigned_cast]
    exact Int.emod_eq_of_lt (Int.natCast_nonneg n) (by exact_mod_cast h)
  exact_mod_cast h1

/-- Different words of `w` bits have different unsigned values. -/
theorem toUnsigned_injOn (w : Nat) (hw : 0 < w) (v₁ v₂ : Int)
    (h₁ : InLong w v₁) (h₂ : InLong w v₂)
    (h : toUnsigned w v₁ = toUnsigned w v₂) : v₁ = v₂ := by
  have hc : v₁ % 2 ^ w = v₂ % 2 ^ w := by
    rw [← toUnsigned_cast, ← toUnsigned_cast, h]
  have hpow : (2 : Int) ^ w = 2 * 2 ^ (w - 1) := by
    obtain ⟨k, rfl⟩ : ∃ k, w = k + 1 := ⟨w - 1, by omega⟩
    simp [pow_succ, mul_comm]
  rw [Int.emod_eq_emod_iff_emod_sub_eq_zero] at hc
  have hd : (2 : Int) ^ w ∣ v₁ - v₂ := Int.dvd_of_emod_eq_zero hc
  obtain ⟨l₁, u₁⟩ := h₁
  obtain ⟨l₂, u₂⟩ := h₂
  have habs : |v₁ - v₂| < 2 ^ w := by
    rw [hpow, abs_lt]; constructor <;> linarith
  have := Int.eq_zero_of_abs_lt_dvd hd habs
  omega

theorem inLong_zero (w : Nat) : InLong w 0 := by
  unfold InLong
  have : (0 : Int) < 2 ^ (w - 1) := by positivity
  constructor <;> linarith

theorem toUnsigned_zero (w : Nat) : toUnsigned w 0 = 0 := by
  simp [toUnsigned]

theorem toUnsigned_ne_zero (w : Nat) (hw : 0 < w) (v : Int) (hv : InLong w v) (hne : v ≠ 0) :
    toUnsigned w v ≠ 0 := by
  intro h
  exact hne (toUnsigned_injOn w hw v 0 hv (inLong_zero w) (by rw [h, toUnsigned_zero]))

/-! ## The field by size of the word -/

/-- A non-zero word below `16 ^ 8` is written as `0x` and eight digits. -/
theorem fmtAltZeroHex_small (u : Nat) (h0 : u ≠ 0) (h8 : u < 16 ^ 8) :
    ∃ ds : List Char, ds.length = 8 ∧ (∀ c ∈ ds, isLowerHex c = true) ∧ readHex ds = u ∧
      fmtAltZeroHex 10 u = [ '0', 'x' ] ++ ds := by
  have hlen := hexDigits_length_le u 7 h8
  refine ⟨List.replicate (10 - (2 + (hexDigits u).length)) '0' ++ hexDigits u, ?_, ?_, ?_,
    fmtAltZeroHex_pos 10 u h0⟩
  · simp only [List.length_append, List.length_replicate]
    omega
  · intro c hc
    rcases List.mem_append.mp hc with h | h
    · rw [(List.mem_replicate.mp h).2]; decide
    · exact hexDigits_isLowerHex u c h
  · rw [readHex_replicate_zero, readHex_hexDigits]

/-- A word from `16 ^ 8` on is written as `0x` and all its digits, unpadded. -/
theorem fmtAltZeroHex_large (u : Nat) (h8 : 16 ^ 8 ≤ u) :
    fmtAltZeroHex 10 u = [ '0', 'x' ] ++ hexDigits u := by
  have hlen := hexDigits_lt_length u 8 h8
  have h0 : u ≠ 0 := by
    intro h; rw [h] at h8; revert h8; decide
  rw [fmtAltZeroHex_pos 10 u h0]
  have : 10 - (2 + (hexDigits u).length) = 0 := by omega
  rw [this]; rfl

/-! ## Claims about `print` and `main` -/

/-- C1: for every word `v`, whatever the width of `long` and whatever was
written before, the value that `print` returns is `v` itself. -/
theorem print_returns_argument (w : Nat) (out : Stdout) (v : Int) :
    (print w out v).2 = v := rfl

/-- C2, as stated, fails on a 64-bit `long` for each kind of word it names:
for the word `0`, for the negative word `-1` and for the word `0x100000000`
above `0xffffffff`, the line that `print` writes is not `Unknown value: 0x`
followed by eight lowercase hexadecimal digits and a newline. -/
theorem print_not_eight_digit_pattern :
    (¬ ∃ ds : List Char, ds.length = 8 ∧ (∀ c ∈ ds, isLowerHex c = true) ∧
      (print 64 [] 0).1 = "Unknown value: 0x".toList ++ ds ++ "\n".toList) ∧
    (¬ ∃ ds : List Char, ds.length = 8 ∧ (∀ c ∈ ds, isLowerHex c = true) ∧
      (print 64 [] (-1)).1 = "Unknown value: 0x".toList ++ ds ++ "\n".toList) ∧
    (¬ ∃ ds : List Char, ds.length = 8 ∧ (∀ c ∈ ds, isLowerHex c = true) ∧
      (print 64 [] 0x100000000).1 = "Unknown value: 0x".toList ++ ds ++ "\n".toList) := by
  refine ⟨?_, ?_, ?_⟩
  · rintro ⟨ds, -, -, h⟩
    have h0 : (print 64 [] 0).1 = "Unknown value: 0000000000\n".toList := by decide
    rw [h0] at h
    have h16 := congrArg (fun l => l.get? 16) h
    simp at h16
  · rintro ⟨ds, hlen, -, h⟩
    have h0 : (print 64 [] (-1)).1 = "Unknown value: 0xffffffffffffffff\n".toList := by
      decide
    rw [h0] at h
    have hl := congrArg List.length h
    simp [hlen] at hl
  · rintro ⟨ds, hlen, -, h⟩
    have h0 : (print 64 [] 0x100000000).1 = "Unknown value: 0x100000000\n".toList := by
      decide
    rw [h0] at h
    have hl := congrArg List.length h
    simp [hlen] at hl

/-- C2, amended: for every word `v` whose value as an unsigned word of `w`
bits lies between `1` and `0xffffffff`, the text that `print(v)` appends to
the standard output is exactly `Unknown value: 0x`, eight lowercase
hexadecimal digits and a newline. -/
theorem print_line_eight_digits (w : Nat) (out : Stdout) (v : Int)
    (h1 : 1 ≤ toUnsigned w v) (h2 : toUnsigned w v ≤ 0xffffffff) :
    ∃ ds : List Char, ds.length = 8 ∧ (∀ c ∈ ds, isLowerHex c = true) ∧
      (print w out v).1 = out ++ ("Unknown value: 0x".toList ++ ds ++ "\n".toList) := by
  obtain ⟨ds, hlen, hhex, -, hfmt⟩ :=
    fmtAltZeroHex_small (toUnsigned w v) (by omega) (by norm_num; omega)
  refine ⟨ds, hlen, hhex, ?_⟩
  unfold print
  simp only [hfmt]
  simp [label]

/-- Instance of the amended C2 at the word `CONST_TRUE` of a 64-bit `long`. -/
theorem print_line_eight_digits_witness :
    (1 ≤ toUnsigned 64 CONST_TRUE ∧ toUnsigned 64 CONST_TRUE ≤ 0xffffffff) ∧
    ∃ ds : List Char, ds.length = 8 ∧ (∀ c ∈ ds, isLowerHex c = true) ∧
      (print 64 [] CONST_TRUE).1 = [] ++ ("Unknown value: 0x".toList ++ ds ++ "\n".toList) :=
  ⟨⟨by decide, by decide⟩, print_line_eight_digits 64 [] CONST_TRUE (by decide) (by decide)⟩

/-- C3: the exit status of `main` is `0` for every external routine, every
argument vector and every initial standard output; in particular for the
routines that return `CONST_TRUE` (`0x80000001`) and `CONST_FALSE`
(`0x00000001`). -/
theorem main_exit_status_zero (w : Nat) (our_code_starts_here : Stdout → Stdout × Int)
    (argc : Int) (argv : List String) (out : Stdout) :
    (main w our_code_starts_here argc argv out).2 = 0 ∧
    (main w (fun o => (o, CONST_TRUE)) argc argv out).2 = 0 ∧
    (main w (fun o => (o, CONST_FALSE)) argc argv out).2 = 0 :=
  ⟨rfl, rfl, rfl⟩

/-- C4: when the external routine returns `CONST_FALSE` (`0x00000001`) and
leaves the standard output as it found it, `main` appends exactly the line
`Unknown value: 0x00000001` and a newline, and exits with status `0`; from an
empty standard output that line is the complete output. -/
theorem main_false_output (w : Nat) (hw : 1 ≤ w)
    (our_code_starts_here : Stdout → Stdout × Int) (argc : Int) (argv : List String)
    (out : Stdout) (hf : our_code_starts_here out = (out, CONST_FALSE)) :
    main w our_code_starts_here argc argv out =
      (out ++ "Unknown value: 0x00000001\n".toList, 0) := by
  have hlt : 1 < 2 ^ w := Nat.one_lt_two_pow (by omega)
  have hu : toUnsigned w CONST_FALSE = 1 := toUnsigned_of_nonneg w 1 hlt
  have hfmt : fmtAltZeroHex 10 1 = "0x00000001".toList := by decide
  simp only [main, print, hf, hu, hfmt]
  rfl

/-- Instance of C4 for a 64-bit `long`, the routine that writes nothing and returns `CONST_FALSE`, and an empty standard output. -/
theorem main_false_output_witness :
    (1 ≤ 64 ∧ (fun o : Stdout => (o, CONST_FALSE)) [] = ([], CONST_FALSE)) ∧
    main 64 (fun o => (o, CONST_FALSE)) 1 [ "boa" ] [] =
      ([] ++ "Unknown value: 0x00000001\n".toList, 0) :=
  ⟨⟨by decide, rfl⟩,
    main_false_output 64 (by decide) (fun o => (o, CONST_FALSE)) 1 [ "boa" ] [] rfl⟩

/-- C5: when the external routine returns `CONST_TRUE` (`0x80000001`, the
value `2147483649`) and leaves the standard output as it found it, `main`
appends exactly the line `Unknown value: 0x80000001` and a newline, and exits
with status `0`; from an empty standard output that line is the complete
output. -/
theorem main_true_output (w : Nat) (hw : 32 ≤ w)
    (our_code_starts_here : Stdout → Stdout × Int) (argc : Int) (argv : List String)
    (out : Stdout) (hf : our_code_starts_here out = (out, CONST_TRUE)) :
    CONST_TRUE = 2147483649 ∧
    main w our_code_starts_here argc argv out =
      (out ++ "Unknown value: 0x80000001\n".toList, 0) := by
  have hlt : 2147483649 < 2 ^ w :=
    calc 2147483649 < 2 ^ 32 := by decide
      _ ≤ 2 ^ w := Nat.pow_le_pow_right (by decide) hw
  have hu : toUnsigned w CONST_TRUE = 2147483649 := toUnsigned_of_nonneg w 2147483649 hlt
  have hfmt : fmtAltZeroHex 10 2147483649 = "0x80000001".toList := by decide
  refine ⟨rfl, ?_⟩
  simp only [main, print, hf, hu, hfmt]
  rfl

/-- Instance of C5 for a 64-bit `long`, the routine that writes nothing and returns `CONST_TRUE`, and an empty standard output. -/
theorem main_true_output_witness :
    (32 ≤ 64 ∧ (fun o : Stdout => (o, CONST_TRUE)) [] = ([], CONST_TRUE)) ∧
    CONST_TRUE = 2147483649 ∧
    main 64 (fun o => (o, CONST_TRUE)) 1 [ "boa" ] [] =
      ([] ++ "Unknown value: 0x80000001\n".toList, 0) :=
  ⟨⟨by decide, rfl⟩,
    main_true_output 64 (by decide) (fun o => (o, CONST_TRUE)) 1 [ "boa" ] [] rfl⟩

/-- C6: the digits that `print(v)` writes denote the full word.  For words
`v₁`, `v₂` of a `long` of `w` bits (`w = 64` in the claim), reading the line of
`v₁` back (label, optional `0x`, digits in base 16, newline) gives `v₁` as
an unsigned word, which is `v₁ mod 2 ^ w`; and when the lines of `v₁` and `v₂`
are the same text, `v₁ = v₂`. -/
theorem print_digits_denote_word (w : Nat) (hw : 0 < w) (v₁ v₂ : Int)
    (h₁ : InLong w v₁) (h₂ : InLong w v₂) :
    readBack (print w [] v₁).1 = some (toUnsigned w v₁) ∧
    (toUnsigned w v₁ : Int) = v₁ % 2 ^ w ∧
    ((print w [] v₁).1 = (print w [] v₂).1 → v₁ = v₂) := by
  refine ⟨readBack_line w v₁, toUnsigned_cast w v₁, ?_⟩
  intro h
  have hr : readBack (print w [] v₁).1 = readBack (print w [] v₂).1 := by rw [h]
  have e₁ : readBack (print w [] v₁).1 = some (toUnsigned w v₁) := readBack_line w v₁
  have e₂ : readBack (print w [] v₂).1 = some (toUnsigned w v₂) := readBack_line w v₂
  rw [e₁, e₂] at hr
  exact toUnsigned_injOn w hw v₁ v₂ h₁ h₂ (Option.some.inj hr)

/-- Instance of C6 at the words `-2` and `0x1fffffffe` of a 64-bit `long`, which agree in their low 32 bits. -/
theorem print_digits_denote_word_witness :
    (0 < 64 ∧ InLong 64 (-2) ∧ InLong 64 0x1fffffffe) ∧
    readBack (print 64 [] (-2)).1 = some (toUnsigned 64 (-2)) ∧
    (toUnsigned 64 (-2) : Int) = (-2) % 2 ^ 64 ∧
    ((print 64 [] (-2)).1 = (print 64 [] 0x1fffffffe).1 → (-2 : Int) = 0x1fffffffe) :=
  ⟨⟨by decide, by decide, by decide⟩,
    print_digits_denote_word 64 (by decide) (-2) 0x1fffffffe (by decide) (by decide)⟩

/-- Every character of a printed line is a character of the label, a
lowercase hexadecimal digit, the `x` of the prefix or the newline. -/
theorem mem_line (w : Nat) (v : Int) (c : Char)
    (hc : c ∈ label ++ fmtAltZeroHex 10 (toUnsigned w v) ++ [ '\n' ]) :
    c ∈ label ∨ isLowerHex c = true ∨ c = 'x' ∨ c = '\n' := by
  obtain ⟨body, -, hhex, -, hfmt⟩ := fmtAltZeroHex_body 10 (toUnsigned w v)
  rw [hfmt] at hc
  simp only [List.mem_append, List.mem_singleton] at hc
  rcases hc with (h | h | h) | h
  · exact Or.inl h
  · split_ifs at h with hz
    · simp at h
    · simp only [List.mem_cons, List.mem_singleton] at h
      rcases h with h | h | h
      · right; left; rw [h]; decide
      · right; right; left; exact h
      · simp at h
  · exact Or.inr (Or.inl (hhex c h))
  · exact Or.inr (Or.inr (Or.inr h))

/-- C7: `print` writes the raw word and never decodes it.  For every word `v`,
with the tag bit set or clear, the text appended to the standard output is the
label `Unknown value: `, the field of the raw unsigned word and one newline,
which is the last character and the only newline; the number the digits denote
is the raw word `v mod 2 ^ w` (not a shifted payload); and neither `true` nor
`false` occurs anywhere in the text.  The closed form mentions none of
`TYPE_MASK`, `CONST_TRUE`, `CONST_FALSE`. -/
theorem print_writes_raw_word (w : Nat) (out : Stdout) (v : Int) :
    ∃ line : List Char,
      (print w out v).1 = out ++ line ∧
      line = "Unknown value: ".toList ++ fmtAltZeroHex 10 ((v % 2 ^ w).toNat) ++ "\n".toList ∧
      readBack line = some ((v % 2 ^ w).toNat) ∧
      line.getLast? = some '\n' ∧ line.count '\n' = 1 ∧
      ¬ "true".toList <:+: line ∧ ¬ "false".toList <:+: line := by
  refine ⟨label ++ fmtAltZeroHex 10 (toUnsigned w v) ++ [ '\n' ], rfl, rfl,
    readBack_line w v, by simp, ?_, ?_, ?_⟩
  · have hnot : '\n' ∉ label ++ fmtAltZeroHex 10 (toUnsigned w v) := by
      intro hmem
      obtain ⟨body, -, hhex, -, hfmt⟩ := fmtAltZeroHex_body 10 (toUnsigned w v)
      rw [hfmt] at hmem
      simp only [List.mem_append] at hmem
      rcases hmem with h | h | h
      · revert h; decide
      · split_ifs at h
        · simp at h
        · revert h; decide
      · have := hhex _ h
        revert this; decide
    rw [List.count_append, List.count_eq_zero.mpr hnot]
    rfl
  · intro hin
    have hr : 'r' ∈ label ++ fmtAltZeroHex 10 (toUnsigned w v) ++ [ '\n' ] :=
      hin.subset (by decide)
    rcases mem_line w v 'r' hr with h | h | h | h <;> revert h <;> decide
  · intro hin
    have hs : 's' ∈ label ++ fmtAltZeroHex 10 (toUnsigned w v) ++ [ '\n' ] :=
      hin.subset (by decide)
    rcases mem_line w v 's' hs with h | h | h | h <;> revert h <;> decide

/-- C8: `main` is one call of the external routine followed by one call of
`print` on its result.  The standard output at exit is the output of
`print` applied to the word the routine returned, on the standard output the
routine left: that output followed by the single line of `print`, with nothing
after it; the exit status is `0`; and `argc`, `argv` play no part. -/
theorem main_single_call (w : Nat) (our_code_starts_here : Stdout → Stdout × Int)
    (argc argc₂ : Int) (argv argv₂ : List String) (out : Stdout) :
    main w our_code_starts_here argc argv out =
      ((print w (our_code_starts_here out).1 (our_code_starts_here out).2).1, 0) ∧
    (main w our_code_starts_here argc argv out).1 =
      (our_code_starts_here out).1 ++ (print w [] (our_code_starts_here out).2).1 ∧
    (∀ r : Int, (main w (fun o => (o, r)) argc argv []).1 = (print w [] r).1) ∧
    main w our_code_starts_here argc₂ argv₂ out = main w our_code_starts_here argc argv out :=
  ⟨rfl, rfl, fun _ => rfl, rfl⟩

/-- C9: `print(0)` writes exactly `Unknown value: 0000000000` and a newline,
ten zero digits and no `0x`, whatever the width of `long`; and every non-zero
word `v` of a `long` of `w` bits is written with the prefix `0x` right after the
label. -/
theorem print_zero_unprefixed (w : Nat) (hw : 0 < w) (v : Int) (hv : InLong w v)
    (hne : v ≠ 0) :
    (print w [] 0).1 = "Unknown value: 0000000000\n".toList ∧
    ¬ "Unknown value: 0x".toList <+: (print w [] 0).1 ∧
    "Unknown value: 0x".toList <+: (print w [] v).1 := by
  have h0 : (print w [] 0).1 = "Unknown value: 0000000000\n".toList := by
    unfold print
    rw [toUnsigned_zero, fmtAltZeroHex_zero]
    rfl
  refine ⟨h0, ?_, ?_⟩
  · rw [h0]; decide
  · have hu := toUnsigned_ne_zero w hw v hv hne
    unfold print
    rw [fmtAltZeroHex_pos 10 _ hu]
    refine ⟨List.replicate (10 - (2 + (hexDigits (toUnsigned w v)).length)) '0' ++
      hexDigits (toUnsigned w v) ++ [ '\n' ], ?_⟩
    simp [label]

/-- Instance of C9 at the word `-4` of a 64-bit `long`. -/
theorem print_zero_unprefixed_witness :
    (0 < 64 ∧ InLong 64 (-4) ∧ (-4 : Int) ≠ 0) ∧
    (print 64 [] 0).1 = "Unknown value: 0000000000\n".toList ∧
    ¬ "Unknown value: 0x".toList <+: (print 64 [] 0).1 ∧
    "Unknown value: 0x".toList <+: (print 64 [] (-4)).1 :=
  ⟨⟨by decide, by decide, by decide⟩,
    print_zero_unprefixed 64 (by decide) (-4) (by decide) (by decide)⟩

theorem toUnsigned_of_nonneg_long (v : Int) (hv : InLong 64 v) (h : 0 ≤ v) :
    toUnsigned 64 v = v.toNat := by
  unfold InLong at hv
  unfold toUnsigned
  norm_num at hv ⊢
  omega

theorem toUnsigned_of_neg_long (v : Int) (hv : InLong 64 v) (h : v < 0) :
    toUnsigned 64 v = (v + 2 ^ 64).toNat := by
  unfold InLong at hv
  unfold toUnsigned
  norm_num at hv ⊢
  omega

/-- C10: the field width `10` is a minimum and the argument is a whole `long`.
For a word `v` of a 64-bit `long`: when `1 ≤ v ≤ 0xffffffff` the line is
`Unknown value: 0x`, the digits of `v` padded with zeros to exactly eight
lowercase hexadecimal digits, and a newline; when `v > 0xffffffff` the line
carries after `0x` the unpadded digits of `v`, more than eight of them; when
`v < 0` it carries after `0x` the digits of the two's complement `v + 2 ^ 64`,
exactly sixteen of them.  For instance `print(-1)` writes
`Unknown value: 0xffffffffffffffff`. -/
theorem print_field_width_minimum (v : Int) (hv : InLong 64 v) :
    (1 ≤ v → v ≤ 0xffffffff →
      ∃ ds : List Char,
        ds = List.replicate (8 - (hexDigits v.toNat).length) '0' ++ hexDigits v.toNat ∧
        ds.length = 8 ∧ (∀ c ∈ ds, isLowerHex c = true) ∧ (readHex ds : Int) = v ∧
        (print 64 [] v).1 = "Unknown value: 0x".toList ++ ds ++ "\n".toList) ∧
    (0xffffffff < v →
      ∃ ds : List Char, ds = hexDigits v.toNat ∧
        8 < ds.length ∧ (∀ c ∈ ds, isLowerHex c = true) ∧ (readHex ds : Int) = v ∧
        (print 64 [] v).1 = "Unknown value: 0x".toList ++ ds ++ "\n".toList) ∧
    (v < 0 →
      ∃ ds : List Char, ds = hexDigits (v + 2 ^ 64).toNat ∧
        ds.length = 16 ∧ (∀ c ∈ ds, isLowerHex c = true) ∧ (readHex ds : Int) = v + 2 ^ 64 ∧
        (print 64 [] v).1 = "Unknown value: 0x".toList ++ ds ++ "\n".toList) ∧
    (print 64 [] (-1)).1 = "Unknown value: 0xffffffffffffffff\n".toList := by
  refine ⟨?_, ?_, ?_, by decide⟩
  · intro h1 h2
    have hu := toUnsigned_of_nonneg_long v hv (by omega)
    have hne : v.toNat ≠ 0 := by omega
    have hlt : v.toNat < 16 ^ 8 := by norm_num; omega
    have hlen := hexDigits_length_le v.toNat 7 hlt
    refine ⟨_, rfl, ?_, ?_, ?_, ?_⟩
    · simp only [List.length_append, List.length_replicate]
      omega
    · intro c hc
      rcases List.mem_append.mp hc with h | h
      · rw [(List.mem_replicate.mp h).2]; decide
      · exact hexDigits_isLowerHex _ c h
    · rw [readHex_replicate_zero, readHex_hexDigits]
      omega
    · unfold print
      rw [hu, fmtAltZeroHex_pos 10 _ hne]
      have : 10 - (2 + (hexDigits v.toNat).length) = 8 - (hexDigits v.toNat).length := by
        omega
      rw [this]
      simp [label]
  · intro h
    have hu := toUnsigned_of_nonneg_long v hv (by omega)
    have hge : 16 ^ 8 ≤ v.toNat := by norm_num; omega
    refine ⟨_, rfl, hexDigits_lt_length _ 8 hge, hexDigits_isLowerHex _, ?_, ?_⟩
    · rw [readHex_hexDigits]; omega
    · unfold print
      rw [hu, fmtAltZeroHex_large _ hge]
      simp [label]
  · intro h
    have hu := toUnsigned_of_neg_long v hv h
    have hrange := hv
    unfold InLong at hrange
    norm_num at hrange
    have hge : 16 ^ 15 ≤ (v + 2 ^ 64).toNat := by norm_num; omega
    have hlt : (v + 2 ^ 64).toNat < 16 ^ 16 := by norm_num; omega
    have hge8 : 16 ^ 8 ≤ (v + 2 ^ 64).toNat := le_trans (by norm_num) hge
    have l1 := hexDigits_lt_length _ 15 hge
    have l2 := hexDigits_length_le _ 15 hlt
    refine ⟨_, rfl, by omega, hexDigits_isLowerHex _, ?_, ?_⟩
    · rw [readHex_hexDigits]
      norm_num
      omega
    · unfold print
      rw [hu, fmtAltZeroHex_large _ hge8]
      simp [label]

/-- Instances of C10 at the words `0x2a`, `0x100000000` and the least word of a 64-bit `long`. -/
theorem print_field_width_minimum_witness :
    (InLong 64 0x2a ∧ (1 : Int) ≤ 0x2a ∧ (0x2a : Int) ≤ 0xffffffff ∧
      InLong 64 0x100000000 ∧ (0xffffffff : Int) < 0x100000000 ∧
      InLong 64 (-0x8000000000000000) ∧ (-0x8000000000000000 : Int) < 0) ∧
    (∃ ds : List Char,
      ds = List.replicate (8 - (hexDigits (0x2a : Int).toNat).length) '0' ++
        hexDigits (0x2a : Int).toNat ∧
      ds.length = 8 ∧ (∀ c ∈ ds, isLowerHex c = true) ∧ (readHex ds : Int) = 0x2a ∧
      (print 64 [] 0x2a).1 = "Unknown value: 0x".toList ++ ds ++ "\n".toList) ∧
    (∃ ds : List Char, ds = hexDigits (0x100000000 : Int).toNat ∧
      8 < ds.length ∧ (∀ c ∈ ds, isLowerHex c = true) ∧ (readHex ds : Int) = 0x100000000 ∧
      (print 64 [] 0x100000000).1 = "Unknown value: 0x".toList ++ ds ++ "\n".toList) ∧
    (∃ ds : List Char, ds = hexDigits (-0x8000000000000000 + 2 ^ 64 : Int).toNat ∧
      ds.length = 16 ∧ (∀ c ∈ ds, isLowerHex c = true) ∧
      (readHex ds : Int) = -0x8000000000000000 + 2 ^ 64 ∧
      (print 64 [] (-0x8000000000000000)).1 =
        "Unknown value: 0x".toList ++ ds ++ "\n".toList) :=
  ⟨⟨by decide, by decide, by decide, by decide, by decide, by decide, by decide⟩,
    (print_field_width_minimum 0x2a (by decide)).1 (by decide) (by decide),
    (print_field_width_minimum 0x100000000 (by decide)).2.1 (by decide),
    (print_field_width_minimum (-0x8000000000000000) (by decide)).2.2.1 (by decide)⟩

end Boa
